import Mathlib

/-
Verification of the in-memory write buffer manager (MemManagerImpl) of the
milvus vector database.  The embedding below follows the C++ source of
MemManagerImpl.cpp: the mutable directory `mem_id_map_` becomes an
association list with unique keys, the immutable queue `immu_mem_list_`
becomes a list, and `shared_ptr` object identity becomes a `tag` field drawn
from a fresh-name counter.  MemTable, VectorSource and the serializer are
external collaborators whose code is not part of the manager; their
behaviour is supplied by an `Env` of oracle functions, modelled from the
spec contracts.
-/

namespace MilvusMem

abbrev TableId := String

abbrev IDNumber := Nat

abbrev WalLsn := Nat

/-- Status codes used by the manager source: `Status::OK()` (SUCCESS),
`DB_ERROR`, `DB_NOT_FOUND`; `other` covers statuses produced by the
collaborators. -/
inductive StatusCode where
  | SUCCESS
  | DB_ERROR
  | DB_NOT_FOUND
  | other (n : Nat)
deriving DecidableEq, Repr

/-- The milvus `Status` value: a code plus a message. -/
structure Status where
  code : StatusCode
  message : String
deriving DecidableEq, Repr

/-- `Status::OK()`. -/
def Status.OK : Status := ⟨StatusCode.SUCCESS, ""⟩

/-- `status.ok()`: true iff the code is SUCCESS. -/
def Status.ok (s : Status) : Bool := s.code == StatusCode.SUCCESS

/-- The part of `VectorsData` the manager reads and writes: the length of the
vector array and the (possibly empty) caller-supplied id array. -/
structure VectorsData where
  vector_count : Nat
  id_array : List IDNumber
deriving DecidableEq, Repr

/-- Modelled from the spec: a MemTable records the appends and tombstones
applied to it since construction (§4.2); an `add` event carries the batch and
the ids the VectorSource used for it, a `del` event carries the tombstoned
id. -/
inductive MemEvent where
  | add (batch : VectorsData) (ids : List IDNumber)
  | del (id : IDNumber)
deriving DecidableEq, Repr

/-- A MemTable as the manager sees it: an object identity (`tag`, standing
for the shared_ptr), its `table_id`, and its applied events. -/
structure MemTable where
  tag : Nat
  table_id : TableId
  events : List MemEvent
deriving DecidableEq, Repr

/-- Modelled from the spec: `MemTable.Empty()` is "true iff no append and no
delete has been applied since construction" (§3). -/
def MemTable.Empty (m : MemTable) : Bool := m.events.isEmpty

/-- Modelled from the spec: outcome oracles for the collaborator calls the
manager makes.  `addStatus` is the status of `MemTable.Add(source)`,
`assignIds` the ids the VectorSource reports via `GetVectorIds()` when the
caller supplied none, `deleteStatus` the status of `MemTable.Delete(id)`,
`serializeStatus` the status of `MemTable.Serialize(wal_lsn)` (which the
manager ignores).  Each oracle may depend on the table, the buffer's applied
events and the argument.  `danglingRead` is the value obtained when
`ToImmutable(table_id)` evaluates `memIt->second` after
`mem_id_map_.erase(memIt)` has already destroyed the node (and with it the
stored shared_ptr): that read is undefined behaviour in the source, so it is
modelled as an unconstrained oracle, possibly depending on the table and the
destroyed buffer. -/
structure Env where
  addStatus : TableId → List MemEvent → VectorsData → Status
  assignIds : TableId → List MemEvent → VectorsData → List IDNumber
  deleteStatus : TableId → List MemEvent → IDNumber → Status
  serializeStatus : TableId → List MemEvent → WalLsn → Status
  danglingRead : TableId → MemTable → MemTable

/-- The manager state: `mem_id_map_` (mutable directory), `immu_mem_list_`
(immutable queue) and the fresh-tag counter standing for allocation of new
MemTable objects. -/
structure MgrState where
  mem_id_map : List (TableId × MemTable)
  immu_mem_list : List MemTable
  next_tag : Nat
deriving DecidableEq, Repr

/-- `mem_id_map_.find(table_id)`. -/
def findMem : List (TableId × MemTable) → TableId → Option MemTable
  | [], _ => none
  | kv :: rest, k => if kv.1 = k then some kv.2 else findMem rest k

/-- `mem_id_map_.erase(table_id)`: drop the entry with the given key. -/
def eraseKey (l : List (TableId × MemTable)) (k : TableId) :
    List (TableId × MemTable) :=
  l.filter (fun kv => !(kv.1 == k))

/-- Overwrite the value stored at a key (the effect of mutating the shared
MemTable object held in the map). -/
def updateKey (l : List (TableId × MemTable)) (k : TableId) (v : MemTable) :
    List (TableId × MemTable) :=
  l.map (fun kv => if kv.1 = k then (k, v) else kv)

/-- `MemManagerImpl::GetMemByTable`: return the existing buffer for
`table_id`, or install and return a freshly constructed one. -/
def getMemByTable (s : MgrState) (table_id : TableId) : MemTable × MgrState :=
  match findMem s.mem_id_map table_id with
  | some m => (m, s)
  | none =>
      let m : MemTable := ⟨s.next_tag, table_id, []⟩
      (m, { s with mem_id_map := s.mem_id_map ++ [(table_id, m)],
                   next_tag := s.next_tag + 1 })

/-- Result of `InsertVectors`: the returned status, the post-state and the
caller's batch as visible after the call (the id write-back mutates it). -/
structure InsertResult where
  status : Status
  state : MgrState
  batch : VectorsData
deriving Repr

/-- `MemManagerImpl::InsertVectorsNoLock`: resolve or create the buffer,
build a VectorSource over the batch, call `Add`; on success, if the caller
supplied no ids, write the source's ids back into the batch.  Return the
MemTable's status verbatim. -/
def insertVectorsNoLock (env : Env) (s : MgrState) (table_id : TableId)
    (vectors : VectorsData) : InsertResult :=
  let mem := (getMemByTable s table_id).1
  let s1 := (getMemByTable s table_id).2
  let st := env.addStatus table_id mem.events vectors
  if st.ok then
    let ids := if vectors.id_array.isEmpty then
                 env.assignIds table_id mem.events vectors
               else vectors.id_array
    let mem1 : MemTable := { mem with events := mem.events ++ [MemEvent.add vectors ids] }
    let s2 := { s1 with mem_id_map := updateKey s1.mem_id_map table_id mem1 }
    let vectors1 := if vectors.id_array.isEmpty then
                      { vectors with id_array := ids }
                    else vectors
    ⟨st, s2, vectors1⟩
  else
    ⟨st, s1, vectors⟩

/-- `MemManagerImpl::InsertVectors`: the back-pressure gate only sleeps and
re-samples, and the mutable lock only serializes callers, so the sequential
semantics is that of the post-gate body. -/
def insertVectors (env : Env) (s : MgrState) (table_id : TableId)
    (vectors : VectorsData) : InsertResult :=
  insertVectorsNoLock env s table_id vectors

/-- Result of a delete call: status and post-state. -/
structure DeleteResult where
  status : Status
  state : MgrState
deriving Repr

/-- `MemManagerImpl::DeleteVector`: resolve or create the buffer, apply one
deletion, return its status.  Modelled from the spec: a failing
`MemTable.Delete` applies nothing (§8 S6). -/
def deleteVector (env : Env) (s : MgrState) (table_id : TableId)
    (vector_id : IDNumber) : DeleteResult :=
  let mem := (getMemByTable s table_id).1
  let s1 := (getMemByTable s table_id).2
  let st := env.deleteStatus table_id mem.events vector_id
  let mem1 := if st.ok then
                { mem with events := mem.events ++ [MemEvent.del vector_id] }
              else mem
  ⟨st, { s1 with mem_id_map := updateKey s1.mem_id_map table_id mem1 }⟩

/-- The loop body of `MemManagerImpl::DeleteVectors`: apply ids in order to
the shared buffer, stopping at (and returning) the first non-OK status. -/
def deleteLoop (env : Env) (table_id : TableId) :
    List MemEvent → List IDNumber → Status × List MemEvent
  | events, [] => (Status.OK, events)
  | events, id :: rest =>
      let st := env.deleteStatus table_id events id
      if st.ok then deleteLoop env table_id (events ++ [MemEvent.del id]) rest
      else (st, events)

/-- `MemManagerImpl::DeleteVectors`: resolve or create the buffer, loop over
the ids, return the first failing status (earlier deletions stay applied) or
`Status::OK()`. -/
def deleteVectors (env : Env) (s : MgrState) (table_id : TableId)
    (ids : List IDNumber) : DeleteResult :=
  let mem := (getMemByTable s table_id).1
  let s1 := (getMemByTable s table_id).2
  let r := deleteLoop env table_id mem.events ids
  let mem1 := { mem with events := r.2 }
  ⟨r.1, { s1 with mem_id_map := updateKey s1.mem_id_map table_id mem1 }⟩

/-- `MemManagerImpl::ToImmutable(table_id)`: under the mutable lock, if the
table is absent return `DB_NOT_FOUND`.  Otherwise the source does
`mem_id_map_.erase(memIt)` — destroying the node and the shared_ptr it
stores — and only then `immu_mem_list_.push_back(memIt->second)`, reading
through the invalidated iterator.  What gets appended is therefore not the
erased buffer but the undefined result of that use-after-free read, modelled
by the `danglingRead` oracle applied to the erased key and buffer. -/
def toImmutableOne (env : Env) (s : MgrState) (table_id : TableId) :
    Status × MgrState :=
  match findMem s.mem_id_map table_id with
  | none =>
      (⟨StatusCode.DB_NOT_FOUND, "Could not find table = " ++ table_id ++ " to flush"⟩, s)
  | some m =>
      (Status.OK,
       { s with mem_id_map := eraseKey s.mem_id_map table_id,
                immu_mem_list := s.immu_mem_list ++ [env.danglingRead table_id m] })

/-- `MemManagerImpl::ToImmutable()`: under the mutable lock, rebuild the
directory keeping the entries whose buffer is `Empty()`, appending the
others to the immutable queue in directory order. -/
def toImmutableAll (s : MgrState) : Status × MgrState :=
  (Status.OK,
   { s with
       mem_id_map := s.mem_id_map.filter (fun kv => kv.2.Empty),
       immu_mem_list :=
         s.immu_mem_list ++ (s.mem_id_map.filter (fun kv => !kv.2.Empty)).map Prod.snd })

/-- One observed `MemTable.Serialize(wal_lsn)` call: the buffer's identity
and table, the LSN passed, and the (ignored) status the serializer
returned. -/
structure SerEvent where
  tag : Nat
  table_id : TableId
  lsn : WalLsn
  status : Status
deriving DecidableEq, Repr

/-- The serialization sweep over a queue snapshot: one event per buffer, in
queue order, each with the same LSN; the returned statuses are recorded but
never consulted. -/
def serializeSweep (env : Env) (mems : List MemTable) (wal_lsn : WalLsn) :
    List SerEvent :=
  mems.map (fun m => ⟨m.tag, m.table_id, wal_lsn,
                      env.serializeStatus m.table_id m.events wal_lsn⟩)

/-- Result of `Flush(table_id, wal_lsn)`: status, post-state and the trace
of `Serialize` calls made. -/
structure FlushResult where
  status : Status
  state : MgrState
  serialized : List SerEvent
deriving Repr

/-- `MemManagerImpl::Flush(table_id, wal_lsn)`: promote by name; a non-ok
promotion is rewrapped as `Status(DB_ERROR, message)` and nothing is
serialized; otherwise serialize every queued buffer in order with `wal_lsn`
(statuses ignored), clear the queue and return `Status::OK()`. -/
def flushOne (env : Env) (s : MgrState) (table_id : TableId)
    (wal_lsn : WalLsn) : FlushResult :=
  let r := toImmutableOne env s table_id
  if r.1.ok then
    ⟨Status.OK, { r.2 with immu_mem_list := [] },
     serializeSweep env r.2.immu_mem_list wal_lsn⟩
  else
    ⟨⟨StatusCode.DB_ERROR, r.1.message⟩, r.2, []⟩

/-- `std::set<std::string>::insert`: ordered insertion without
duplicates. -/
def setInsert : List TableId → TableId → List TableId
  | [], x => [x]
  | y :: ys, x =>
      if x < y then x :: y :: ys
      else if x = y then y :: ys
      else y :: setInsert ys x

/-- Result of `Flush(table_ids, wal_lsn)`: status, post-state, the out
parameter as left on return, and the trace of `Serialize` calls made. -/
structure FlushAllResult where
  status : Status
  state : MgrState
  table_ids : List TableId
  serialized : List SerEvent
deriving Repr

/-- `MemManagerImpl::Flush(table_ids, wal_lsn)`: promote every non-empty
buffer, clear the caller's set, serialize every queued buffer in order with
`wal_lsn` inserting each buffer's table id into the set, clear the queue,
return `Status::OK()`. -/
def flushAll (env : Env) (s : MgrState) (wal_lsn : WalLsn)
    (table_ids0 : List TableId) : FlushAllResult :=
  let s1 := (toImmutableAll s).2
  let q := s1.immu_mem_list
  ⟨Status.OK, { s1 with immu_mem_list := [] },
   q.foldl (fun acc m => setInsert acc m.table_id) [],
   serializeSweep env q wal_lsn⟩

/-- `MemManagerImpl::EraseMemVector`: erase the directory entry under the
mutable lock, then rebuild the queue keeping (in order) only buffers of
other tables, under the serialization lock.  Returns `Status::OK()`. -/
def eraseMemVector (s : MgrState) (table_id : TableId) : Status × MgrState :=
  (Status.OK,
   { s with mem_id_map := eraseKey s.mem_id_map table_id,
            immu_mem_list :=
              s.immu_mem_list.filter (fun m => !(m.table_id == table_id)) })

/-- The manager operations, for stating invariants over all of them. -/
inductive Op where
  | insertOp (table_id : TableId) (vectors : VectorsData)
  | deleteOneOp (table_id : TableId) (vector_id : IDNumber)
  | deleteManyOp (table_id : TableId) (ids : List IDNumber)
  | flushOneOp (table_id : TableId) (wal_lsn : WalLsn)
  | flushAllOp (wal_lsn : WalLsn) (table_ids0 : List TableId)
  | eraseOp (table_id : TableId)

/-- The state transition of one manager operation. -/
def applyOp (env : Env) (op : Op) (s : MgrState) : MgrState :=
  match op with
  | Op.insertOp tid v => (insertVectors env s tid v).state
  | Op.deleteOneOp tid i => (deleteVector env s tid i).state
  | Op.deleteManyOp tid ids => (deleteVectors env s tid ids).state
  | Op.flushOneOp tid lsn => (flushOne env s tid lsn).state
  | Op.flushAllOp lsn t0 => (flushAll env s lsn t0).state
  | Op.eraseOp tid => (eraseMemVector s tid).2

/-- A freshly constructed manager: both collections empty. -/
def initState : MgrState := ⟨[], [], 0⟩

/-- States reachable from a freshly constructed manager by manager
operations. -/
inductive Reachable (env : Env) : MgrState → Prop where
  | init : Reachable env initState
  | step (s : MgrState) (op : Op) : Reachable env s → Reachable env (applyOp env op s)

/-- The object identities stored in the mutable directory. -/
def mapTags (s : MgrState) : List Nat := s.mem_id_map.map (fun kv => kv.2.tag)

/-- The object identities stored in the immutable queue. -/
def immuTags (s : MgrState) : List Nat := s.immu_mem_list.map MemTable.tag

/-- The keys of the mutable directory. -/
def mapKeys (s : MgrState) : List TableId := s.mem_id_map.map Prod.fst

/-- Well-formedness of a manager state: directory keys are unique, object
identities in the directory are unique, no object is both in the directory
and in the queue, all identities are below the allocation counter, and every
directory value reports its key as its table id. -/
def wf (s : MgrState) : Prop :=
  (mapKeys s).Nodup ∧
  (mapTags s).Nodup ∧
  (∀ t ∈ mapTags s, t ∉ immuTags s) ∧
  (∀ t ∈ mapTags s, t < s.next_tag) ∧
  (∀ t ∈ immuTags s, t < s.next_tag) ∧
  (∀ kv ∈ s.mem_id_map, kv.2.table_id = kv.1)

instance (s : MgrState) : Decidable (wf s) := by
  unfold wf
  infer_instance

/-- A concrete collaborator environment used to evaluate the development on
sample inputs: `Add` always succeeds, the source assigns ids `0..n-1`,
`Delete` fails on id 99, and the undefined dangling read happens to yield
the erased buffer itself — the value the spec intends the promotion to
append (and the one the upstream push_back-before-erase ordering would
produce). -/
def env0 : Env where
  addStatus := fun _ _ _ => Status.OK
  assignIds := fun _ _ v => List.range v.vector_count
  deleteStatus := fun _ _ id =>
    if id = 99 then ⟨StatusCode.other 7, "delete failed"⟩ else Status.OK
  serializeStatus := fun _ _ _ => Status.OK
  danglingRead := fun _ m => m

/-- An environment resolving the use-after-free read in
`ToImmutable(table_id)` to garbage unrelated to the erased buffer — an
equally legal outcome of the undefined behaviour. -/
def envGarbage : Env :=
  { env0 with danglingRead := fun _ _ => ⟨99, "zombie", []⟩ }

/-- An environment resolving the use-after-free read to a value that
aliases the live buffer of table "b" in `sampleState` (tag 1) — another
legal outcome of the undefined behaviour. -/
def envAlias : Env :=
  { env0 with danglingRead := fun _ _ => ⟨1, "b", [MemEvent.del 4]⟩ }

/-- The tombstone events a list of ids contributes, in order. -/
def delsOf (ids : List IDNumber) : List MemEvent := ids.map MemEvent.del

/-- Every deletion in the list succeeds, each judged against the buffer as
left by the deletions before it. -/
def allSucceed (env : Env) (table_id : TableId) : List MemEvent → List IDNumber → Prop
  | _, [] => True
  | events, id :: rest =>
      (env.deleteStatus table_id events id).ok = true ∧
      allSucceed env table_id (events ++ [MemEvent.del id]) rest

/-- Modelled from the spec: the VectorSource contract (§4.3, §8 property 2):
when it assigns ids it assigns exactly one per vector of the batch. -/
def AddContract (env : Env) : Prop :=
  ∀ table_id events v, (env.assignIds table_id events v).length = v.vector_count

/-- The two mutexes of the manager: `mutex_` (mutable directory) and
`serialization_mtx_` (immutable queue). -/
inductive LockName where
  | mtxMut
  | mtxImmu
deriving DecidableEq, Repr

/-- Acquire and release events on the two mutexes. -/
inductive LockEvent where
  | acq (l : LockName)
  | rel (l : LockName)
deriving DecidableEq, Repr

/-- Which locks are held, as a pair (mutable held, immutable held). -/
def lockStep : Bool × Bool → LockEvent → Bool × Bool
  | (_, i), LockEvent.acq LockName.mtxMut => (true, i)
  | (_, i), LockEvent.rel LockName.mtxMut => (false, i)
  | (m, _), LockEvent.acq LockName.mtxImmu => (m, true)
  | (m, _), LockEvent.rel LockName.mtxImmu => (m, false)

/-- The locks held after executing the first `pos` events of a trace. -/
def heldAt (tr : List LockEvent) (pos : Nat) : Bool × Bool :=
  (tr.take pos).foldl lockStep (false, false)

/-- Starting from the given held-set, no acquire happens while any lock is
held (in particular never the second lock while holding the first). -/
def noAcqWhileHeldFrom : Bool × Bool → List LockEvent → Bool
  | _, [] => true
  | st, LockEvent.acq l :: tr =>
      !(st.1 || st.2) && noAcqWhileHeldFrom (lockStep st (LockEvent.acq l)) tr
  | st, LockEvent.rel l :: tr =>
      noAcqWhileHeldFrom (lockStep st (LockEvent.rel l)) tr

/-- No acquire happens while a lock is held, from the all-free state. -/
def noAcqWhileHeld (tr : List LockEvent) : Bool :=
  noAcqWhileHeldFrom (false, false) tr

/-- At no point of the trace are both locks held simultaneously. -/
def neverBothFrom : Bool × Bool → List LockEvent → Bool
  | st, [] => !(st.1 && st.2)
  | st, e :: tr => !(st.1 && st.2) && neverBothFrom (lockStep st e) tr

/-- At no point of the trace are both locks held, from the all-free state. -/
def neverBoth (tr : List LockEvent) : Bool :=
  neverBothFrom (false, false) tr

/-- Lock events of `GetCurrentMem()`: `GetCurrentMutableMem()` takes and
releases `mutex_`, then `GetCurrentImmutableMem()` takes and releases
`serialization_mtx_` (sequentially, never nested). -/
def getCurrentMemTrace : List LockEvent :=
  [LockEvent.acq LockName.mtxMut, LockEvent.rel LockName.mtxMut,
   LockEvent.acq LockName.mtxImmu, LockEvent.rel LockName.mtxImmu]

/-- Lock events of `InsertVectors` when the back-pressure gate samples
`GetCurrentMem()` `n` times: the gate samples, then the body takes and
releases `mutex_`. -/
def insertTrace (n : Nat) : List LockEvent :=
  (List.replicate n getCurrentMemTrace).flatten ++
    [LockEvent.acq LockName.mtxMut, LockEvent.rel LockName.mtxMut]

/-- Lock events of `DeleteVector` / `DeleteVectors`: the source takes no
lock on this path. -/
def deleteTrace : List LockEvent := []

/-- Lock events of both Flush variants: `ToImmutable` takes and releases
`mutex_`, then the sweep takes and releases `serialization_mtx_`; the two
are never held together. -/
def flushTrace : List LockEvent :=
  [LockEvent.acq LockName.mtxMut, LockEvent.rel LockName.mtxMut,
   LockEvent.acq LockName.mtxImmu, LockEvent.rel LockName.mtxImmu]

/-- Lock events of `EraseMemVector`: two successive scoped blocks. -/
def eraseTrace : List LockEvent :=
  [LockEvent.acq LockName.mtxMut, LockEvent.rel LockName.mtxMut,
   LockEvent.acq LockName.mtxImmu, LockEvent.rel LockName.mtxImmu]

/-- The lock-event trace of each manager operation; for `InsertVectors` the
parameter is the number of gate samples of `GetCurrentMem()`. -/
def opLockTrace : Op → Nat → List LockEvent
  | Op.insertOp _ _, n => insertTrace n
  | Op.deleteOneOp _ _, _ => deleteTrace
  | Op.deleteManyOp _ _, _ => deleteTrace
  | Op.flushOneOp _ _, _ => flushTrace
  | Op.flushAllOp _ _, _ => flushTrace
  | Op.eraseOp _, _ => eraseTrace

/-- A thread executing a manager operation: its lock trace and its current
position in it. -/
structure Proc where
  tr : List LockEvent
  pos : Nat
deriving DecidableEq, Repr

/-- The lock the thread is blocked trying to acquire, if its next event is
an acquire. -/
def Proc.waitsFor (p : Proc) : Option LockName :=
  match (p.tr.drop p.pos).head? with
  | some (LockEvent.acq l) => some l
  | _ => none

/-- Whether the thread currently holds the given lock. -/
def Proc.holds (p : Proc) (l : LockName) : Bool :=
  match l with
  | LockName.mtxMut => (heldAt p.tr p.pos).1
  | LockName.mtxImmu => (heldAt p.tr p.pos).2

/-- A circular wait: a nonempty set of threads, each blocked on a lock that
some member of the set holds. -/
def DeadlockedSet (S : List Proc) : Prop :=
  S ≠ [] ∧ ∀ p ∈ S, ∃ l, p.waitsFor = some l ∧ ∃ q ∈ S, q.holds l = true

/-- A sample two-table state used to evaluate the theorems on concrete
input: table a holds one applied insert, table b one applied tombstone, the
queue is empty and three tags are spent. -/
def sampleState : MgrState :=
  ⟨[("a", ⟨0, "a", [MemEvent.add ⟨1, [5]⟩ [5]]⟩), ("b", ⟨1, "b", [MemEvent.del 4]⟩)],
   [], 3⟩

/-- A sample three-vector batch with no caller-supplied ids. -/
def sampleBatch : VectorsData := ⟨3, []⟩

theorem findMem_eq_none {l : List (TableId × MemTable)} {k : TableId}
    (h : findMem l k = none) : ∀ kv ∈ l, kv.1 ≠ k := by
  induction l with
  | nil => intro kv hkv; cases hkv
  | cons hd tl ih =>
      intro kv hkv
      by_cases hh : hd.1 = k
      · simp [findMem, hh] at h
      · simp only [findMem, hh, if_neg, ite_false] at h
        rcases List.mem_cons.mp hkv with rfl | hkv
        · exact hh
        · exact ih h kv hkv

theorem findMem_mem {l : List (TableId × MemTable)} {k : TableId} {m : MemTable}
    (h : findMem l k = some m) : (k, m) ∈ l := by
  induction l with
  | nil => simp [findMem] at h
  | cons hd tl ih =>
      by_cases hh : hd.1 = k
      · simp only [findMem, hh, if_pos, ite_true, Option.some.injEq] at h
        subst h; subst hh
        exact List.mem_cons_self _ _
      · simp only [findMem, hh, ite_false] at h
        exact List.mem_cons_of_mem _ (ih h)

theorem findMem_unique {l : List (TableId × MemTable)} {k : TableId} {m : MemTable}
    (hnd : (l.map Prod.fst).Nodup) (h : findMem l k = some m) :
    ∀ kv ∈ l, kv.1 = k → kv.2 = m := by
  induction l with
  | nil => intro kv hkv; cases hkv
  | cons hd tl ih =>
      intro kv hkv hk
      rcases List.mem_cons.mp hkv with rfl | hkv
      · rw [findMem, if_pos hk] at h
        exact Option.some.inj h
      · by_cases hh : hd.1 = k
        · exfalso
          have : hd.1 ∈ tl.map Prod.fst :=
            List.mem_map.mpr ⟨kv, hkv, by rw [hk, hh]⟩
          exact (List.nodup_cons.mp hnd).1 this
        · rw [findMem, if_neg hh] at h
          exact ih (List.nodup_cons.mp hnd).2 h kv hkv hk

theorem findMem_append_none {l : List (TableId × MemTable)} {k : TableId}
    (h : findMem l k = none) (l2 : List (TableId × MemTable)) :
    findMem (l ++ l2) k = findMem l2 k := by
  induction l with
  | nil => rfl
  | cons hd tl ih =>
      by_cases hh : hd.1 = k
      · simp [findMem, hh] at h
      · simp only [findMem, hh, ite_false] at h ⊢
        exact ih h

theorem findMem_updateKey {l : List (TableId × MemTable)} {k : TableId} {m : MemTable}
    (h : findMem l k = some m) (v : MemTable) :
    findMem (updateKey l k v) k = some v := by
  induction l with
  | nil => simp [findMem] at h
  | cons hd tl ih =>
      by_cases hh : hd.1 = k
      · simp [updateKey, findMem, hh]
      · rw [findMem, if_neg hh] at h
        simp only [updateKey, List.map_cons, if_neg hh]
        rw [findMem, if_neg hh]
        exact ih h

theorem updateKey_keys (l : List (TableId × MemTable)) (k : TableId) (v : MemTable) :
    (updateKey l k v).map Prod.fst = l.map Prod.fst := by
  rw [updateKey, List.map_map]
  apply List.map_congr_left
  intro kv _
  by_cases hh : kv.1 = k <;> simp [hh, Function.comp]

theorem updateKey_tags {l : List (TableId × MemTable)} {k : TableId} {m : MemTable}
    (hnd : (l.map Prod.fst).Nodup) (hf : findMem l k = some m)
    {v : MemTable} (htag : v.tag = m.tag) :
    (updateKey l k v).map (fun kv => kv.2.tag) = l.map (fun kv => kv.2.tag) := by
  rw [updateKey, List.map_map]
  apply List.map_congr_left
  intro kv hkv
  by_cases hh : kv.1 = k
  · have := findMem_unique hnd hf kv hkv hh
    simp [hh, Function.comp, htag, this]
  · simp [hh, Function.comp]

theorem updateKey_mem {l : List (TableId × MemTable)} {k : TableId} {v : MemTable}
    {kv : TableId × MemTable} (h : kv ∈ updateKey l k v) :
    kv = (k, v) ∨ (kv ∈ l ∧ kv.1 ≠ k) := by
  rw [updateKey] at h
  rcases List.mem_map.mp h with ⟨kv0, hkv0, heq⟩
  by_cases hh : kv0.1 = k
  · left; rw [if_pos hh] at heq; exact heq.symm
  · right; rw [if_neg hh] at heq; subst heq; exact ⟨hkv0, hh⟩

theorem wf_updateKey {s : MgrState} {k : TableId} {v m : MemTable} (hwf : wf s)
    (hf : findMem s.mem_id_map k = some m)
    (htag : v.tag = m.tag) (htid : v.table_id = m.table_id) :
    wf { s with mem_id_map := updateKey s.mem_id_map k v } := by
  obtain ⟨hk, ht, hd, hb1, hb2, hinv⟩ := hwf
  have hmk : m.table_id = k := hinv (k, m) (findMem_mem hf)
  refine ⟨?_, ?_, ?_, ?_, ?_, ?_⟩
  · show ((updateKey s.mem_id_map k v).map Prod.fst).Nodup
    rw [updateKey_keys]; exact hk
  · show ((updateKey s.mem_id_map k v).map (fun kv => kv.2.tag)).Nodup
    rw [updateKey_tags hk hf htag]; exact ht
  · intro t htm
    rw [mapTags] at htm
    rw [updateKey_tags hk hf htag] at htm
    exact hd t htm
  · intro t htm
    rw [mapTags] at htm
    rw [updateKey_tags hk hf htag] at htm
    exact hb1 t htm
  · exact hb2
  · intro kv hkv
    rcases updateKey_mem hkv with rfl | ⟨hkv, _⟩
    · show v.table_id = k
      rw [htid, hmk]
    · exact hinv kv hkv

theorem getMemByTable_spec (s : MgrState) (tid : TableId) (hwf : wf s) :
    wf (getMemByTable s tid).2 ∧
    findMem (getMemByTable s tid).2.mem_id_map tid = some (getMemByTable s tid).1 ∧
    (getMemByTable s tid).1.table_id = tid ∧
    (getMemByTable s tid).2.immu_mem_list = s.immu_mem_list ∧
    (getMemByTable s tid).1.tag < (getMemByTable s tid).2.next_tag := by
  obtain ⟨hk, ht, hd, hb1, hb2, hinv⟩ := hwf
  cases hfind : findMem s.mem_id_map tid with
  | some m =>
      simp only [getMemByTable, hfind]
      refine ⟨⟨hk, ht, hd, hb1, hb2, hinv⟩, trivial, ?_, trivial, ?_⟩
      · exact hinv (tid, m) (findMem_mem hfind)
      · exact hb1 m.tag (List.mem_map.mpr ⟨(tid, m), findMem_mem hfind, rfl⟩)
  | none =>
      have hnotin : ∀ kv ∈ s.mem_id_map, kv.1 ≠ tid := findMem_eq_none hfind
      simp only [getMemByTable, hfind]
      constructor
      · refine ⟨?_, ?_, ?_, ?_, ?_, ?_⟩ <;>
          simp only [mapKeys, mapTags, immuTags, List.map_append,
            List.map_cons, List.map_nil]
        · rw [List.nodup_append]
          refine ⟨hk, List.nodup_singleton _, ?_⟩
          intro a ha hb
          rcases List.mem_map.mp ha with ⟨kv, hkv, rfl⟩
          rcases List.mem_singleton.mp hb with rfl
          exact hnotin kv hkv rfl
        · rw [List.nodup_append]
          refine ⟨ht, List.nodup_singleton _, ?_⟩
          intro a ha hb
          rcases List.mem_singleton.mp hb with rfl
          exact absurd (hb1 _ ha) (lt_irrefl _)
        · intro t htm
          rcases List.mem_append.mp htm with htm | htm
          · exact hd t htm
          · rcases List.mem_singleton.mp htm with rfl
            intro hc
            exact absurd (hb2 _ hc) (lt_irrefl _)
        · intro t htm
          rcases List.mem_append.mp htm with htm | htm
          · exact Nat.lt_succ_of_lt (hb1 t htm)
          · rcases List.mem_singleton.mp htm with rfl
            exact Nat.lt_succ_self _
        · intro t htm
          exact Nat.lt_succ_of_lt (hb2 t htm)
        · intro kv hkv
          rcases List.mem_append.mp hkv with hkv | hkv
          · exact hinv kv hkv
          · rcases List.mem_singleton.mp hkv with rfl
            rfl
      · refine ⟨?_, trivial, trivial, Nat.lt_succ_self _⟩
        exact (findMem_append_none hfind _).trans (by simp [findMem])

theorem wf_insertVectors (env : Env) (s : MgrState) (tid : TableId) (v : VectorsData)
    (hwf : wf s) : wf (insertVectors env s tid v).state := by
  obtain ⟨hwf1, hfind, _, _, _⟩ := getMemByTable_spec s tid hwf
  simp only [insertVectors, insertVectorsNoLock]
  split
  · exact wf_updateKey hwf1 hfind rfl rfl
  · exact hwf1

theorem wf_deleteVector (env : Env) (s : MgrState) (tid : TableId) (i : IDNumber)
    (hwf : wf s) : wf (deleteVector env s tid i).state := by
  obtain ⟨hwf1, hfind, _, _, _⟩ := getMemByTable_spec s tid hwf
  simp only [deleteVector]
  split
  · exact wf_updateKey hwf1 hfind rfl rfl
  · exact wf_updateKey hwf1 hfind rfl rfl

theorem wf_deleteVectors (env : Env) (s : MgrState) (tid : TableId) (ids : List IDNumber)
    (hwf : wf s) : wf (deleteVectors env s tid ids).state := by
  obtain ⟨hwf1, hfind, _, _, _⟩ := getMemByTable_spec s tid hwf
  simp only [deleteVectors]
  exact wf_updateKey hwf1 hfind rfl rfl

theorem wf_eraseKeyState (s : MgrState) (tid : TableId) (hwf : wf s) :
    wf { s with mem_id_map := eraseKey s.mem_id_map tid } := by
  obtain ⟨hk, ht, hd, hb1, hb2, hinv⟩ := hwf
  have hsubK : List.Sublist (eraseKey s.mem_id_map tid) s.mem_id_map :=
    List.filter_sublist _
  rw [mapKeys] at hk
  rw [mapTags] at ht
  refine ⟨hk.sublist (hsubK.map Prod.fst), ht.sublist (hsubK.map _), ?_, ?_, hb2, ?_⟩
  · intro t htm
    simp only [mapTags, immuTags] at htm ⊢
    rcases List.mem_map.mp htm with ⟨kv, hkv, rfl⟩
    exact hd _ (List.mem_map.mpr ⟨kv, List.mem_of_mem_filter hkv, rfl⟩)
  · intro t htm
    simp only [mapTags] at htm
    rcases List.mem_map.mp htm with ⟨kv, hkv, rfl⟩
    exact hb1 _ (List.mem_map.mpr ⟨kv, List.mem_of_mem_filter hkv, rfl⟩)
  · intro kv hkv
    exact hinv kv (List.mem_of_mem_filter hkv)

theorem wf_toImmutableOne_intended (env : Env) (s : MgrState) (tid : TableId)
    (hwf : wf s) (hdr : ∀ k m, env.danglingRead k m = m) :
    wf (toImmutableOne env s tid).2 := by
  obtain ⟨hk, ht, hd, hb1, hb2, hinv⟩ := hwf
  cases hfind : findMem s.mem_id_map tid with
  | none => simp only [toImmutableOne, hfind]; exact ⟨hk, ht, hd, hb1, hb2, hinv⟩
  | some m =>
      simp only [toImmutableOne, hfind, hdr]
      have hsubK : List.Sublist (eraseKey s.mem_id_map tid) s.mem_id_map :=
        List.filter_sublist _
      have hmem : (tid, m) ∈ s.mem_id_map := findMem_mem hfind
      rw [mapKeys] at hk
      rw [mapTags] at ht
      refine ⟨?_, ?_, ?_, ?_, ?_, ?_⟩
      · exact hk.sublist (hsubK.map Prod.fst)
      · exact ht.sublist (hsubK.map _)
      · intro t htm
        simp only [mapTags, immuTags, List.map_append, List.map_cons, List.map_nil] at htm ⊢
        rcases List.mem_map.mp htm with ⟨kv, hkv, rfl⟩
        have hkvl : kv ∈ s.mem_id_map := List.mem_of_mem_filter hkv
        have hkvne : kv.1 ≠ tid := by
          have hmf := List.of_mem_filter hkv
          simpa using hmf
        intro hc
        rcases List.mem_append.mp hc with hc | hc
        · exact hd _ (List.mem_map.mpr ⟨kv, hkvl, rfl⟩) hc
        · have heq : kv.2.tag = m.tag := List.mem_singleton.mp hc
          have hkvm : kv = (tid, m) := List.inj_on_of_nodup_map ht hkvl hmem heq
          exact hkvne (by rw [hkvm])
      · intro t htm
        simp only [mapTags] at htm
        rcases List.mem_map.mp htm with ⟨kv, hkv, rfl⟩
        exact hb1 _ (List.mem_map.mpr ⟨kv, List.mem_of_mem_filter hkv, rfl⟩)
      · intro t htm
        simp only [immuTags, List.map_append, List.map_cons, List.map_nil] at htm
        rcases List.mem_append.mp htm with htm | htm
        · exact hb2 t htm
        · rcases List.mem_singleton.mp htm with rfl
          exact hb1 _ (List.mem_map.mpr ⟨(tid, m), hmem, rfl⟩)
      · intro kv hkv
        exact hinv kv (List.mem_of_mem_filter hkv)

theorem wf_toImmutableAll (s : MgrState) (hwf : wf s) : wf (toImmutableAll s).2 := by
  obtain ⟨hk, ht, hd, hb1, hb2, hinv⟩ := hwf
  simp only [toImmutableAll]
  have hsubK : List.Sublist (s.mem_id_map.filter (fun kv => kv.2.Empty)) s.mem_id_map :=
    List.filter_sublist _
  have hsubK2 : List.Sublist (s.mem_id_map.filter (fun kv => !kv.2.Empty)) s.mem_id_map :=
    List.filter_sublist _
  rw [mapKeys] at hk
  rw [mapTags] at ht
  refine ⟨?_, ?_, ?_, ?_, ?_, ?_⟩
  · exact hk.sublist (hsubK.map Prod.fst)
  · exact ht.sublist (hsubK.map _)
  · intro t htm
    simp only [mapTags, immuTags, List.map_append, List.map_map] at htm ⊢
    rcases List.mem_map.mp htm with ⟨kv, hkv, rfl⟩
    have hkvl : kv ∈ s.mem_id_map := List.mem_of_mem_filter hkv
    have hkvE : kv.2.Empty = true := by
      have hmf := List.of_mem_filter hkv
      simpa using hmf
    intro hc
    rcases List.mem_append.mp hc with hc | hc
    · exact hd _ (List.mem_map.mpr ⟨kv, hkvl, rfl⟩) hc
    · rcases List.mem_map.mp hc with ⟨kv', hkv', heq⟩
      have hkvl' : kv' ∈ s.mem_id_map := List.mem_of_mem_filter hkv'
      have hkvE' : kv'.2.Empty = false := by
        have hmf := List.of_mem_filter hkv'
        simpa using hmf
      have hkvm : kv' = kv :=
        List.inj_on_of_nodup_map ht hkvl' hkvl (by simpa using heq)
      rw [hkvm, hkvE] at hkvE'
      cases hkvE'
  · intro t htm
    simp only [mapTags] at htm
    rcases List.mem_map.mp htm with ⟨kv, hkv, rfl⟩
    exact hb1 _ (List.mem_map.mpr ⟨kv, List.mem_of_mem_filter hkv, rfl⟩)
  · intro t htm
    simp only [immuTags, List.map_append, List.map_map] at htm
    rcases List.mem_append.mp htm with htm | htm
    · exact hb2 t htm
    · rcases List.mem_map.mp htm with ⟨kv, hkv, heq⟩
      have : kv.2.tag ∈ mapTags s :=
        List.mem_map.mpr ⟨kv, List.mem_of_mem_filter hkv, rfl⟩
      rw [show t = kv.2.tag from by simpa using heq.symm]
      exact hb1 _ this
  · intro kv hkv
    exact hinv kv (List.mem_of_mem_filter hkv)

theorem wf_clearImmu {s : MgrState} (hwf : wf s) : wf { s with immu_mem_list := [] } := by
  obtain ⟨hk, ht, hd, hb1, hb2, hinv⟩ := hwf
  refine ⟨hk, ht, ?_, hb1, ?_, hinv⟩
  · intro t _
    simp [immuTags]
  · intro t htm
    simp [immuTags] at htm

theorem wf_flushOne (env : Env) (s : MgrState) (tid : TableId) (lsn : WalLsn)
    (hwf : wf s) : wf (flushOne env s tid lsn).state := by
  cases hfind : findMem s.mem_id_map tid with
  | none =>
      have hstate : (flushOne env s tid lsn).state = s := by
        simp [flushOne, toImmutableOne, hfind, Status.ok]
      rw [hstate]
      exact hwf
  | some m =>
      have hstate : (flushOne env s tid lsn).state =
          { s with mem_id_map := eraseKey s.mem_id_map tid, immu_mem_list := [] } := by
        simp [flushOne, toImmutableOne, hfind, Status.ok, Status.OK]
      rw [hstate]
      exact wf_clearImmu (wf_eraseKeyState s tid hwf)

theorem wf_flushAll (env : Env) (s : MgrState) (lsn : WalLsn) (t0 : List TableId)
    (hwf : wf s) : wf (flushAll env s lsn t0).state := by
  have h1 := wf_toImmutableAll s hwf
  simp only [flushAll]
  exact wf_clearImmu h1

theorem wf_eraseMemVector (s : MgrState) (tid : TableId) (hwf : wf s) :
    wf (eraseMemVector s tid).2 := by
  obtain ⟨hk, ht, hd, hb1, hb2, hinv⟩ := hwf
  simp only [eraseMemVector]
  have hsubK : List.Sublist (eraseKey s.mem_id_map tid) s.mem_id_map :=
    List.filter_sublist _
  have hsubI : List.Sublist (s.immu_mem_list.filter (fun m => !(m.table_id == tid)))
      s.immu_mem_list := List.filter_sublist _
  rw [mapKeys] at hk
  rw [mapTags] at ht
  refine ⟨?_, ?_, ?_, ?_, ?_, ?_⟩
  · exact hk.sublist (hsubK.map Prod.fst)
  · exact ht.sublist (hsubK.map _)
  · intro t htm
    simp only [mapTags, immuTags] at htm ⊢
    rcases List.mem_map.mp htm with ⟨kv, hkv, rfl⟩
    intro hc
    rcases List.mem_map.mp hc with ⟨m, hm, heq⟩
    have hm' : m ∈ s.immu_mem_list := List.mem_of_mem_filter hm
    exact hd _ (List.mem_map.mpr ⟨kv, List.mem_of_mem_filter hkv, rfl⟩)
      (List.mem_map.mpr ⟨m, hm', heq⟩)
  · intro t htm
    simp only [mapTags] at htm
    rcases List.mem_map.mp htm with ⟨kv, hkv, rfl⟩
    exact hb1 _ (List.mem_map.mpr ⟨kv, List.mem_of_mem_filter hkv, rfl⟩)
  · intro t htm
    simp only [immuTags] at htm
    rcases List.mem_map.mp htm with ⟨m, hm, rfl⟩
    exact hb2 _ (List.mem_map.mpr ⟨m, List.mem_of_mem_filter hm, rfl⟩)
  · intro kv hkv
    exact hinv kv (List.mem_of_mem_filter hkv)

theorem wf_applyOp (env : Env) (op : Op) (s : MgrState) (hwf : wf s) :
    wf (applyOp env op s) := by
  cases op with
  | insertOp tid v => exact wf_insertVectors env s tid v hwf
  | deleteOneOp tid i => exact wf_deleteVector env s tid i hwf
  | deleteManyOp tid ids => exact wf_deleteVectors env s tid ids hwf
  | flushOneOp tid lsn => exact wf_flushOne env s tid lsn hwf
  | flushAllOp lsn t0 => exact wf_flushAll env s lsn t0 hwf
  | eraseOp tid => exact wf_eraseMemVector s tid hwf

theorem wf_initState : wf initState := by
  refine ⟨?_, ?_, ?_, ?_, ?_, ?_⟩ <;>
    simp [initState, mapKeys, mapTags, immuTags]

theorem reachable_wf {env : Env} {s : MgrState} (h : Reachable env s) : wf s := by
  induction h with
  | init => exact wf_initState
  | step s op _ ih => exact wf_applyOp env op s ih

theorem getMemByTable_immu (s : MgrState) (tid : TableId) :
    (getMemByTable s tid).2.immu_mem_list = s.immu_mem_list := by
  cases hfind : findMem s.mem_id_map tid <;> simp [getMemByTable, hfind]

theorem immu_applyOp_nil (env : Env) (op : Op) (s : MgrState)
    (h : s.immu_mem_list = []) : (applyOp env op s).immu_mem_list = [] := by
  cases op with
  | insertOp tid v =>
      simp only [applyOp, insertVectors, insertVectorsNoLock]
      split
      · exact getMemByTable_immu s tid |>.trans h
      · exact getMemByTable_immu s tid |>.trans h
  | deleteOneOp tid i =>
      simp only [applyOp, deleteVector]
      exact getMemByTable_immu s tid |>.trans h
  | deleteManyOp tid ids =>
      simp only [applyOp, deleteVectors]
      exact getMemByTable_immu s tid |>.trans h
  | flushOneOp tid lsn =>
      cases hfind : findMem s.mem_id_map tid with
      | none => simp [applyOp, flushOne, toImmutableOne, hfind, Status.ok, h]
      | some m => simp [applyOp, flushOne, toImmutableOne, hfind, Status.ok, Status.OK]
  | flushAllOp lsn t0 => simp [applyOp, flushAll]
  | eraseOp tid => simp [applyOp, eraseMemVector, h]

theorem reachable_immu_nil {env : Env} {s : MgrState} (h : Reachable env s) :
    s.immu_mem_list = [] := by
  induction h with
  | init => rfl
  | step s op _ ih => exact immu_applyOp_nil env op s ih

theorem mem_setInsert (l : List TableId) (x a : TableId) :
    a ∈ setInsert l x ↔ a = x ∨ a ∈ l := by
  induction l with
  | nil => simp [setInsert]
  | cons y ys ih =>
      by_cases h1 : x < y
      · simp [setInsert, h1]
      · by_cases h2 : x = y
        · subst h2
          simp only [setInsert, h1, ite_false, if_neg, ite_true, if_pos]
          constructor
          · intro ha; exact Or.inr ha
          · intro ha
            rcases ha with rfl | ha
            · exact List.mem_cons_self _ _
            · exact ha
        · simp only [setInsert, h1, h2, ite_false, List.mem_cons, ih]
          tauto

theorem mem_foldl_setInsert (l : List MemTable) (acc : List TableId) (a : TableId) :
    a ∈ l.foldl (fun acc m => setInsert acc m.table_id) acc ↔
      a ∈ acc ∨ ∃ m ∈ l, m.table_id = a := by
  induction l generalizing acc with
  | nil => simp
  | cons hd tl ih =>
      rw [List.foldl_cons, ih, mem_setInsert]
      constructor
      · intro hc
        rcases hc with (rfl | hacc) | ⟨m, hm, hma⟩
        · exact Or.inr ⟨hd, List.mem_cons_self _ _, rfl⟩
        · exact Or.inl hacc
        · exact Or.inr ⟨m, List.mem_cons_of_mem _ hm, hma⟩
      · intro hc
        rcases hc with hacc | ⟨m, hm, hma⟩
        · exact Or.inl (Or.inr hacc)
        · rcases List.mem_cons.mp hm with rfl | hm
          · exact Or.inl (Or.inl hma.symm)
          · exact Or.inr ⟨m, hm, hma⟩

theorem deleteLoop_allSucceed (env : Env) (table_id : TableId)
    (ids : List IDNumber) :
    ∀ events, allSucceed env table_id events ids →
      deleteLoop env table_id events ids = (Status.OK, events ++ delsOf ids) := by
  induction ids with
  | nil => intro events _; simp [deleteLoop, delsOf]
  | cons id rest ih =>
      intro events hall
      obtain ⟨hok, hrest⟩ := hall
      rw [deleteLoop, if_pos hok, ih _ hrest]
      simp [delsOf]

theorem deleteLoop_firstFailure (env : Env) (table_id : TableId)
    (pre : List IDNumber) (b : IDNumber) (post : List IDNumber) :
    ∀ events, allSucceed env table_id events pre →
      (env.deleteStatus table_id (events ++ delsOf pre) b).ok = false →
      deleteLoop env table_id events (pre ++ b :: post) =
        (env.deleteStatus table_id (events ++ delsOf pre) b, events ++ delsOf pre) := by
  induction pre with
  | nil =>
      intro events _ hfail
      rw [List.nil_append, deleteLoop, if_neg (by simp [delsOf] at hfail ⊢; simp [hfail])]
      simp [delsOf]
  | cons id rest ih =>
      intro events hall hfail
      obtain ⟨hok, hrest⟩ := hall
      rw [List.cons_append, deleteLoop, if_pos hok]
      have := ih (events ++ [MemEvent.del id]) hrest (by simpa [delsOf] using hfail)
      rw [this]
      simp [delsOf]

theorem getMemByTable_find (s : MgrState) (tid : TableId) :
    findMem (getMemByTable s tid).2.mem_id_map tid = some (getMemByTable s tid).1 := by
  cases hfind : findMem s.mem_id_map tid with
  | some m => simp [getMemByTable, hfind]
  | none =>
      simp only [getMemByTable, hfind]
      exact (findMem_append_none hfind _).trans (by simp [findMem])

theorem acq_points_free (tr : List LockEvent) :
    ∀ (st : Bool × Bool) (pos : Nat) (l : LockName),
      noAcqWhileHeldFrom st tr = true →
      (tr.drop pos).head? = some (LockEvent.acq l) →
      (tr.take pos).foldl lockStep st = (false, false) := by
  induction tr with
  | nil =>
      intro st pos l _ hh
      simp at hh
  | cons e tr ih =>
      intro st pos l hna hh
      cases pos with
      | zero =>
          simp only [List.drop_zero, List.head?_cons, Option.some.injEq] at hh
          subst hh
          simp only [noAcqWhileHeldFrom, Bool.and_eq_true, Bool.not_eq_true',
            Bool.or_eq_false_iff] at hna
          obtain ⟨⟨h1, h2⟩, _⟩ := hna
          simp only [List.take_zero, List.foldl_nil]
          exact Prod.ext h1 h2
      | succ k =>
          simp only [List.drop_succ_cons] at hh
          simp only [List.take_succ_cons, List.foldl_cons]
          refine ih (lockStep st e) k l ?_ hh
          cases e with
          | acq l2 =>
              simp only [noAcqWhileHeldFrom, Bool.and_eq_true] at hna
              exact hna.2
          | rel l2 =>
              simpa only [noAcqWhileHeldFrom] using hna

theorem waitsFor_head {p : Proc} {l : LockName} (h : p.waitsFor = some l) :
    (p.tr.drop p.pos).head? = some (LockEvent.acq l) := by
  unfold Proc.waitsFor at h
  cases hh : (p.tr.drop p.pos).head? with
  | none => rw [hh] at h; cases h
  | some e =>
      cases e with
      | acq l2 =>
          rw [hh] at h
          simp only [Option.some.injEq] at h
          rw [h]
      | rel l2 => rw [hh] at h; cases h

theorem noDeadlock_of_noAcq (S : List Proc)
    (hgood : ∀ p ∈ S, noAcqWhileHeld p.tr = true) : ¬ DeadlockedSet S := by
  rintro ⟨hne, hall⟩
  obtain ⟨p0, hp0⟩ := List.exists_mem_of_ne_nil S hne
  obtain ⟨l, _, q, hq, hqh⟩ := hall p0 hp0
  obtain ⟨l', hw', _⟩ := hall q hq
  have hfree : (q.tr.take q.pos).foldl lockStep (false, false) = (false, false) :=
    acq_points_free q.tr (false, false) q.pos l' (hgood q hq) (waitsFor_head hw')
  have hheld : heldAt q.tr q.pos = (false, false) := hfree
  cases l with
  | mtxMut =>
      rw [show q.holds LockName.mtxMut = (heldAt q.tr q.pos).1 from rfl, hheld] at hqh
      cases hqh
  | mtxImmu =>
      rw [show q.holds LockName.mtxImmu = (heldAt q.tr q.pos).2 from rfl, hheld] at hqh
      cases hqh

theorem gct_step_noAcq (tr : List LockEvent) :
    noAcqWhileHeldFrom (false, false) (getCurrentMemTrace ++ tr) =
      noAcqWhileHeldFrom (false, false) tr := by
  simp [getCurrentMemTrace, noAcqWhileHeldFrom, lockStep]

theorem gct_step_neverBoth (tr : List LockEvent) :
    neverBothFrom (false, false) (getCurrentMemTrace ++ tr) =
      neverBothFrom (false, false) tr := by
  simp [getCurrentMemTrace, neverBothFrom, lockStep]

theorem insertTrace_noAcq (n : Nat) : noAcqWhileHeld (insertTrace n) = true := by
  induction n with
  | zero => decide
  | succ k ih =>
      unfold noAcqWhileHeld at ih ⊢
      rw [insertTrace, List.replicate_succ, List.flatten_cons, List.append_assoc,
        gct_step_noAcq]
      rw [insertTrace] at ih
      exact ih

theorem insertTrace_neverBoth (n : Nat) : neverBoth (insertTrace n) = true := by
  induction n with
  | zero => decide
  | succ k ih =>
      unfold neverBoth at ih ⊢
      rw [insertTrace, List.replicate_succ, List.flatten_cons, List.append_assoc,
        gct_step_neverBoth]
      rw [insertTrace] at ih
      exact ih

theorem opLockTrace_noAcq (op : Op) (n : Nat) :
    noAcqWhileHeld (opLockTrace op n) = true := by
  cases op with
  | insertOp tid v => exact insertTrace_noAcq n
  | deleteOneOp tid i => exact (by decide : noAcqWhileHeld deleteTrace = true)
  | deleteManyOp tid ids => exact (by decide : noAcqWhileHeld deleteTrace = true)
  | flushOneOp tid lsn => exact (by decide : noAcqWhileHeld flushTrace = true)
  | flushAllOp lsn t0 => exact (by decide : noAcqWhileHeld flushTrace = true)
  | eraseOp tid => exact (by decide : noAcqWhileHeld eraseTrace = true)

theorem opLockTrace_neverBoth (op : Op) (n : Nat) :
    neverBoth (opLockTrace op n) = true := by
  cases op with
  | insertOp tid v => exact insertTrace_neverBoth n
  | deleteOneOp tid i => exact (by decide : neverBoth deleteTrace = true)
  | deleteManyOp tid ids => exact (by decide : neverBoth deleteTrace = true)
  | flushOneOp tid lsn => exact (by decide : neverBoth flushTrace = true)
  | flushAllOp lsn t0 => exact (by decide : neverBoth flushTrace = true)
  | eraseOp tid => exact (by decide : neverBoth eraseTrace = true)

/-- C1, counterexample: with an empty manager (so table "missing" has no
entry in the mutable directory), `Flush("missing", 1)` does not return a
`DB_NOT_FOUND` status: the source rewraps the promotion's status as
`Status(DB_ERROR, msg)`. -/
theorem c1_flushOne_missing_cex :
    findMem initState.mem_id_map "missing" = none ∧
    ¬ (flushOne env0 initState "missing" 1).status.code = StatusCode.DB_NOT_FOUND := by
  constructor
  · rfl
  · intro hc
    simp [flushOne, toImmutableOne, findMem, initState, Status.ok] at hc

/-- C1, amended: for every state in which `table_id` has no entry in the
mutable directory, `Flush(table_id, wal_lsn)` returns a non-OK status whose
code is `DB_ERROR` and whose message is the promotion step's not-found
message (the inner `ToImmutable` produces `DB_NOT_FOUND`, which `Flush`
rewraps as `DB_ERROR`). -/
theorem c1_flushOne_missing_amended (env : Env) (s : MgrState) (table_id : TableId)
    (wal_lsn : WalLsn) (hfind : findMem s.mem_id_map table_id = none) :
    (flushOne env s table_id wal_lsn).status =
      ⟨StatusCode.DB_ERROR, "Could not find table = " ++ table_id ++ " to flush"⟩ ∧
    (toImmutableOne env s table_id).1.code = StatusCode.DB_NOT_FOUND := by
  constructor
  · simp [flushOne, toImmutableOne, hfind, Status.ok]
  · simp [toImmutableOne, hfind]

/-- C1, witness: the amended statement evaluated on the empty manager and
table "missing". -/
theorem c1_flushOne_missing_witness :
    (flushOne env0 initState "missing" 1).status =
      ⟨StatusCode.DB_ERROR, "Could not find table = missing to flush"⟩ ∧
    (toImmutableOne env0 initState "missing").1.code = StatusCode.DB_NOT_FOUND :=
  c1_flushOne_missing_amended env0 initState "missing" 1 rfl

/-- C8: for every state in which `table_id` has no entry in the mutable
directory, `Flush(table_id, wal_lsn)` leaves both the mutable directory and
the immutable queue unchanged (the whole state, in fact) and invokes
`Serialize` on no buffer. -/
theorem c8_flushOne_missing_no_effect (env : Env) (s : MgrState) (table_id : TableId)
    (wal_lsn : WalLsn) (hfind : findMem s.mem_id_map table_id = none) :
    (flushOne env s table_id wal_lsn).state = s ∧
    (flushOne env s table_id wal_lsn).serialized = [] := by
  constructor <;> simp [flushOne, toImmutableOne, hfind, Status.ok]

/-- C8, witness: a state with a queued buffer for table "b"; flushing the
absent table "missing" changes nothing and serializes nothing. -/
theorem c8_flushOne_missing_witness :
    (flushOne env0 ⟨[], [⟨7, "b", [MemEvent.del 1]⟩], 8⟩ "missing" 5).state =
      ⟨[], [⟨7, "b", [MemEvent.del 1]⟩], 8⟩ ∧
    (flushOne env0 ⟨[], [⟨7, "b", [MemEvent.del 1]⟩], 8⟩ "missing" 5).serialized = [] :=
  c8_flushOne_missing_no_effect env0 ⟨[], [⟨7, "b", [MemEvent.del 1]⟩], 8⟩ "missing" 5 rfl

/-- C2, code bug: at the failing input (sample state with table "a"
present, `Flush("a", 7)`) the source first destroys the directory node
(`mem_id_map_.erase(memIt)`) and only then pushes `memIt->second` through
the invalidated iterator, so what the sweep serializes in place of the
promoted buffer is an undefined use-after-free read.  Concretely: under the
garbage resolution of that read the call still returns OK and clears the
queue, but no serialize event carries the promoted buffer's identity
(tag 0); under the intended resolution (the erased buffer itself, as the
spec and the upstream push_back-before-erase ordering prescribe) the
promoted buffer is serialized with the LSN exactly as the claim demands;
and the two resolutions produce different observable serialize traces, so
the claimed behaviour is not what the program guarantees. -/
theorem c2_flushOne_ub :
    (flushOne envGarbage sampleState "a" 7).status = Status.OK ∧
    (flushOne envGarbage sampleState "a" 7).state.immu_mem_list = [] ∧
    (∀ e ∈ (flushOne envGarbage sampleState "a" 7).serialized, e.tag ≠ 0) ∧
    (flushOne env0 sampleState "a" 7).serialized =
      serializeSweep env0
        (sampleState.immu_mem_list ++ [⟨0, "a", [MemEvent.add ⟨1, [5]⟩ [5]]⟩]) 7 ∧
    (flushOne envGarbage sampleState "a" 7).serialized ≠
      (flushOne env0 sampleState "a" 7).serialized := by
  refine ⟨by decide, by decide, by decide, by decide, by decide⟩

/-- C3: `Flush(table_ids, wal_lsn)` keeps exactly the `Empty()` buffers in
the mutable directory and moves the non-empty ones to the immutable queue,
serializes every queued buffer (pre-existing queue entries first, then the
newly promoted ones, each with `wal_lsn`), leaves the queue empty, and on
return the out set holds exactly the table ids of the serialized buffers;
an `Empty()` mutable buffer is never among the serialized ones. -/
theorem c3_flushAll_partitions (env : Env) (s : MgrState) (wal_lsn : WalLsn)
    (table_ids0 : List TableId) (hwf : wf s) :
    (flushAll env s wal_lsn table_ids0).status = Status.OK ∧
    (flushAll env s wal_lsn table_ids0).state.mem_id_map =
      s.mem_id_map.filter (fun kv => kv.2.Empty) ∧
    (flushAll env s wal_lsn table_ids0).state.immu_mem_list = [] ∧
    (flushAll env s wal_lsn table_ids0).serialized =
      serializeSweep env
        (s.immu_mem_list ++ (s.mem_id_map.filter (fun kv => !kv.2.Empty)).map Prod.snd)
        wal_lsn ∧
    (∀ a, a ∈ (flushAll env s wal_lsn table_ids0).table_ids ↔
       ∃ e ∈ (flushAll env s wal_lsn table_ids0).serialized, e.table_id = a) ∧
    (∀ kv ∈ s.mem_id_map, kv.2.Empty = true →
       ∀ e ∈ (flushAll env s wal_lsn table_ids0).serialized, e.tag ≠ kv.2.tag) := by
  obtain ⟨hk, ht, hd, hb1, hb2, hinv⟩ := hwf
  rw [mapTags] at ht
  refine ⟨rfl, rfl, rfl, rfl, ?_, ?_⟩
  · intro a
    simp only [flushAll, toImmutableAll, mem_foldl_setInsert, serializeSweep,
      List.mem_map, List.not_mem_nil, false_or]
    constructor
    · rintro ⟨m, hm, rfl⟩
      exact ⟨_, ⟨m, hm, rfl⟩, rfl⟩
    · rintro ⟨e, ⟨m, hm, rfl⟩, rfl⟩
      exact ⟨m, hm, rfl⟩
  · intro kv hkv hkvE e he hc
    simp only [flushAll, toImmutableAll, serializeSweep, List.mem_map] at he
    rcases he with ⟨m, hm, rfl⟩
    rcases List.mem_append.mp hm with hm | hm
    · exact hd kv.2.tag (List.mem_map.mpr ⟨kv, hkv, rfl⟩)
        (List.mem_map.mpr ⟨m, hm, hc⟩)
    · rcases List.mem_map.mp hm with ⟨kv', hkv', rfl⟩
      have hkvl' : kv' ∈ s.mem_id_map := List.mem_of_mem_filter hkv'
      have hkvE' : kv'.2.Empty = false := by
        have hmf := List.of_mem_filter hkv'
        simpa using hmf
      have : kv' = kv := List.inj_on_of_nodup_map ht hkvl' hkv hc
      rw [this, hkvE] at hkvE'
      cases hkvE'

/-- C3, witness: flushing all of the sample state (both tables non-empty,
empty queue) serializes both buffers with LSN 5 and reports both table
ids. -/
theorem c3_flushAll_witness :
    (flushAll env0 sampleState 5 ["junk"]).status = Status.OK ∧
    (flushAll env0 sampleState 5 ["junk"]).state.mem_id_map =
      sampleState.mem_id_map.filter (fun kv => kv.2.Empty) ∧
    (flushAll env0 sampleState 5 ["junk"]).state.immu_mem_list = [] ∧
    (flushAll env0 sampleState 5 ["junk"]).serialized =
      serializeSweep env0
        (sampleState.immu_mem_list ++
          (sampleState.mem_id_map.filter (fun kv => !kv.2.Empty)).map Prod.snd) 5 ∧
    (∀ a, a ∈ (flushAll env0 sampleState 5 ["junk"]).table_ids ↔
       ∃ e ∈ (flushAll env0 sampleState 5 ["junk"]).serialized, e.table_id = a) ∧
    (∀ kv ∈ sampleState.mem_id_map, kv.2.Empty = true →
       ∀ e ∈ (flushAll env0 sampleState 5 ["junk"]).serialized, e.tag ≠ kv.2.tag) :=
  c3_flushAll_partitions env0 sampleState 5 ["junk"] (by decide)

/-- C10: `Flush(table_ids, wal_lsn)` returns OK in every state; the out set
it returns is independent of what the caller's set held before the call
(the set is cleared before filling); and in every reachable state in which
every mutable buffer is empty (or none exists), the out set is empty on
return. -/
theorem c10_flushAll_total (env : Env) (wal_lsn : WalLsn)
    (table_ids0 : List TableId) :
    (∀ s : MgrState, (flushAll env s wal_lsn table_ids0).status = Status.OK) ∧
    (∀ s : MgrState, (flushAll env s wal_lsn table_ids0).table_ids =
        (flushAll env s wal_lsn []).table_ids) ∧
    (∀ s : MgrState, Reachable env s →
        (∀ kv ∈ s.mem_id_map, kv.2.Empty = true) →
        (flushAll env s wal_lsn table_ids0).table_ids = []) := by
  refine ⟨fun s => rfl, fun s => rfl, ?_⟩
  intro s hreach hall
  have himmu := reachable_immu_nil hreach
  have hfil : s.mem_id_map.filter (fun kv => !kv.2.Empty) = [] :=
    List.filter_eq_nil_iff.mpr (fun kv hkv => by simp [hall kv hkv])
  simp [flushAll, toImmutableAll, himmu, hfil]

/-- C10, witness: on the freshly constructed manager the all-table flush
returns OK and reports no table even when the caller's set was
non-empty. -/
theorem c10_flushAll_witness :
    (flushAll env0 initState 3 ["junk"]).status = Status.OK ∧
    (flushAll env0 initState 3 ["junk"]).table_ids =
      (flushAll env0 initState 3 []).table_ids ∧
    (flushAll env0 initState 3 ["junk"]).table_ids = [] := by
  have h := c10_flushAll_total env0 3 ["junk"]
  exact ⟨h.1 initState, h.2.1 initState,
    h.2.2 initState Reachable.init (by intro kv hkv; cases hkv)⟩

/-- C4: `InsertVectors(table_id, batch)` returns exactly `MemTable.Add`'s
status; when the input id array is empty and `Add` succeeds, the ids the
VectorSource reports are written back into the batch (one per vector, by
the source contract); when the caller supplied ids, or `Add` fails, the
batch is left unchanged. -/
theorem c4_insertVectors_id_writeback (env : Env) (s : MgrState)
    (table_id : TableId) (v : VectorsData) (hc : AddContract env) :
    (insertVectors env s table_id v).status =
      env.addStatus table_id (getMemByTable s table_id).1.events v ∧
    (v.id_array = [] → (insertVectors env s table_id v).status.ok = true →
      (insertVectors env s table_id v).batch.id_array =
        env.assignIds table_id (getMemByTable s table_id).1.events v ∧
      (insertVectors env s table_id v).batch.id_array.length = v.vector_count ∧
      (insertVectors env s table_id v).batch.vector_count = v.vector_count) ∧
    (v.id_array ≠ [] → (insertVectors env s table_id v).batch = v) ∧
    ((insertVectors env s table_id v).status.ok = false →
      (insertVectors env s table_id v).batch = v) := by
  simp only [insertVectors, insertVectorsNoLock]
  by_cases hok : (env.addStatus table_id (getMemByTable s table_id).1.events v).ok = true
  · rw [if_pos hok]
    by_cases hv : v.id_array = []
    · have hve : v.id_array.isEmpty = true := by simp [hv]
      refine ⟨rfl, ?_, ?_, ?_⟩
      · intro _ _
        refine ⟨by simp [hve], ?_, by simp [hve]⟩
        simp [hve, hc table_id (getMemByTable s table_id).1.events v]
      · intro hne; exact absurd hv hne
      · intro hfalse; rw [hok] at hfalse; cases hfalse
    · have hve : v.id_array.isEmpty = false := by
        cases hvv : v.id_array with
        | nil => exact absurd hvv hv
        | cons a rest => rfl
      refine ⟨rfl, ?_, ?_, ?_⟩
      · intro hveq; exact absurd hveq hv
      · intro _
        simp [hve]
      · intro hfalse; rw [hok] at hfalse; cases hfalse
  · rw [if_neg hok]
    refine ⟨rfl, ?_, fun _ => rfl, fun _ => rfl⟩
    intro _ habs
    exact absurd habs hok

/-- C4, witness: inserting a three-vector batch with no ids into the fresh
manager writes back the three source-assigned ids. -/
theorem c4_insertVectors_witness :
    (insertVectors env0 initState "t" sampleBatch).status =
      env0.addStatus "t" (getMemByTable initState "t").1.events sampleBatch ∧
    (insertVectors env0 initState "t" sampleBatch).batch.id_array = [0, 1, 2] ∧
    (insertVectors env0 initState "t" sampleBatch).batch.id_array.length = 3 := by
  have h := c4_insertVectors_id_writeback env0 initState "t" sampleBatch
    (fun _ _ v => by simp [env0])
  have h2 := h.2.1 rfl (by decide)
  refine ⟨h.1, ?_, ?_⟩
  · rw [h2.1]; decide
  · rw [h2.2.1]; rfl

/-- C5: `DeleteVectors(table_id, ids)` applies the deletions in order; if
every per-id `Delete` succeeds it returns OK with all tombstones applied;
if some `Delete` fails first (after a prefix of successes), the call
returns that failing status and the buffer holds exactly the tombstones of
the preceding ids — the failing and later ids are not applied. -/
theorem c5_deleteVectors_first_failure :
    (∀ (env : Env) (s : MgrState) (table_id : TableId) (ids : List IDNumber),
       allSucceed env table_id (getMemByTable s table_id).1.events ids →
       (deleteVectors env s table_id ids).status = Status.OK ∧
       findMem (deleteVectors env s table_id ids).state.mem_id_map table_id =
         some { (getMemByTable s table_id).1 with
                  events := (getMemByTable s table_id).1.events ++ delsOf ids }) ∧
    (∀ (env : Env) (s : MgrState) (table_id : TableId)
       (pre : List IDNumber) (b : IDNumber) (post : List IDNumber),
       allSucceed env table_id (getMemByTable s table_id).1.events pre →
       (env.deleteStatus table_id
          ((getMemByTable s table_id).1.events ++ delsOf pre) b).ok = false →
       (deleteVectors env s table_id (pre ++ b :: post)).status =
         env.deleteStatus table_id
           ((getMemByTable s table_id).1.events ++ delsOf pre) b ∧
       findMem (deleteVectors env s table_id (pre ++ b :: post)).state.mem_id_map
           table_id =
         some { (getMemByTable s table_id).1 with
                  events := (getMemByTable s table_id).1.events ++ delsOf pre }) := by
  constructor
  · intro env s table_id ids hall
    have hloop := deleteLoop_allSucceed env table_id ids _ hall
    simp only [deleteVectors, hloop]
    exact ⟨trivial, findMem_updateKey (getMemByTable_find s table_id) _⟩
  · intro env s table_id pre b post hall hfail
    have hloop := deleteLoop_firstFailure env table_id pre b post _ hall hfail
    simp only [deleteVectors, hloop]
    exact ⟨trivial, findMem_updateKey (getMemByTable_find s table_id) _⟩

/-- C5, witness: deleting ids [1, 99, 3] on the fresh manager, where id 99
fails, returns the failing status, applies only the tombstone for 1 and
never attempts 3. -/
theorem c5_deleteVectors_witness :
    (deleteVectors env0 initState "t" ([1] ++ 99 :: [3])).status =
      env0.deleteStatus "t" ((getMemByTable initState "t").1.events ++ delsOf [1]) 99 ∧
    findMem (deleteVectors env0 initState "t" ([1] ++ 99 :: [3])).state.mem_id_map "t" =
      some { (getMemByTable initState "t").1 with
               events := (getMemByTable initState "t").1.events ++ delsOf [1] } :=
  c5_deleteVectors_first_failure.2 env0 initState "t" [1] 99 [3]
    ⟨by decide, trivial⟩ (by decide)

/-- C6: `EraseMemVector(table_id)` returns OK; afterwards no buffer of that
table remains in either collection; buffers of other tables remain in both
collections and the immutable queue keeps its prior order (it is a sublist
of the old queue). -/
theorem c6_eraseMemVector_removes (s : MgrState) (table_id : TableId) (hwf : wf s) :
    (eraseMemVector s table_id).1 = Status.OK ∧
    (∀ kv ∈ (eraseMemVector s table_id).2.mem_id_map, kv.2.table_id ≠ table_id) ∧
    (∀ m ∈ (eraseMemVector s table_id).2.immu_mem_list, m.table_id ≠ table_id) ∧
    (∀ kv ∈ s.mem_id_map, kv.2.table_id ≠ table_id →
       kv ∈ (eraseMemVector s table_id).2.mem_id_map) ∧
    (∀ m ∈ s.immu_mem_list, m.table_id ≠ table_id →
       m ∈ (eraseMemVector s table_id).2.immu_mem_list) ∧
    List.Sublist (eraseMemVector s table_id).2.immu_mem_list s.immu_mem_list := by
  obtain ⟨hk, ht, hd, hb1, hb2, hinv⟩ := hwf
  simp only [eraseMemVector, eraseKey]
  refine ⟨trivial, ?_, ?_, ?_, ?_, List.filter_sublist _⟩
  · intro kv hkv
    have h1 : kv.1 ≠ table_id := by
      have hmf := List.of_mem_filter hkv
      simpa using hmf
    rw [hinv kv (List.mem_of_mem_filter hkv)]
    exact h1
  · intro m hm
    have hmf := List.of_mem_filter hm
    simpa using hmf
  · intro kv hkv hne
    rw [hinv kv hkv] at hne
    exact List.mem_filter.mpr ⟨hkv, by simp [hne]⟩
  · intro m hm hne
    exact List.mem_filter.mpr ⟨hm, by simp [hne]⟩

/-- C6, witness: erasing table "a" from the sample state returns OK and
leaves only table "b"'s buffer. -/
theorem c6_eraseMemVector_witness :
    (eraseMemVector sampleState "a").1 = Status.OK ∧
    (∀ kv ∈ (eraseMemVector sampleState "a").2.mem_id_map, kv.2.table_id ≠ "a") ∧
    (∀ m ∈ (eraseMemVector sampleState "a").2.immu_mem_list, m.table_id ≠ "a") ∧
    (∀ kv ∈ sampleState.mem_id_map, kv.2.table_id ≠ "a" →
       kv ∈ (eraseMemVector sampleState "a").2.mem_id_map) ∧
    (∀ m ∈ sampleState.immu_mem_list, m.table_id ≠ "a" →
       m ∈ (eraseMemVector sampleState "a").2.immu_mem_list) ∧
    List.Sublist (eraseMemVector sampleState "a").2.immu_mem_list
      sampleState.immu_mem_list :=
  c6_eraseMemVector_removes sampleState "a" (by decide)

/-- C7, code bug: promotion by name is not the valid same-step move the
claim asserts.  The source (`ToImmutable(table_id)`, part_000 lines
125-126) erases the directory node — destroying the stored shared_ptr —
and then appends `memIt->second` read through the invalidated iterator,
undefined behaviour.  Concretely at the failing input (sample state,
promoting table "a"): under a legal resolution of that read which aliases
the live buffer of table "b" (tag 1), the intermediate promoted state has
tag 1 both as a directory value and in the queue, violating the xor
invariant; under the intended resolution the erased buffer itself is
appended and the disjointness holds; the end states of all six operations
do remain well-formed only because the flush sweep clears the queue in the
same call. -/
theorem c7_promotion_ub :
    ((1 : Nat) ∈ mapTags (toImmutableOne envAlias sampleState "a").2 ∧
     (1 : Nat) ∈ immuTags (toImmutableOne envAlias sampleState "a").2) ∧
    ((toImmutableOne env0 sampleState "a").2.immu_mem_list =
       sampleState.immu_mem_list ++ [⟨0, "a", [MemEvent.add ⟨1, [5]⟩ [5]]⟩] ∧
     (∀ t ∈ mapTags (toImmutableOne env0 sampleState "a").2,
        t ∉ immuTags (toImmutableOne env0 sampleState "a").2)) ∧
    (∀ op : Op, wf (applyOp envAlias op sampleState)) := by
  refine ⟨⟨by decide, by decide⟩, ⟨by decide, by decide⟩, ?_⟩
  intro op
  exact wf_applyOp envAlias op sampleState (by decide)

/-- C9: no code path of the manager acquires a mutex while holding one (in
particular the Flush operations promote under the mutable lock, release it,
and only then take the serialization lock, so the two are never held
simultaneously and acquisitions trivially respect the fixed order), and
consequently no set of threads running manager operations can be in a
circular wait: no deadlock occurs. -/
theorem c9_lock_discipline :
    (∀ (op : Op) (n : Nat), noAcqWhileHeld (opLockTrace op n) = true) ∧
    (∀ (op : Op) (n : Nat), neverBoth (opLockTrace op n) = true) ∧
    (∀ S : List Proc, (∀ p ∈ S, ∃ op n, p.tr = opLockTrace op n) →
       ¬ DeadlockedSet S) := by
  refine ⟨opLockTrace_noAcq, opLockTrace_neverBoth, ?_⟩
  intro S hS
  apply noDeadlock_of_noAcq
  intro p hp
  obtain ⟨op, n, htr⟩ := hS p hp
  rw [htr]
  exact opLockTrace_noAcq op n

/-- C9, witness: a flush thread between its two critical sections holds no
lock, and a system of one flush thread and one insert thread cannot be
deadlocked. -/
theorem c9_lock_witness :
    noAcqWhileHeld (opLockTrace (Op.flushOneOp "t" 7) 0) = true ∧
    neverBoth (opLockTrace (Op.flushOneOp "t" 7) 0) = true ∧
    ¬ DeadlockedSet [⟨opLockTrace (Op.flushOneOp "t" 7) 0, 2⟩,
                     ⟨opLockTrace (Op.insertOp "u" sampleBatch) 1, 4⟩] := by
  have h := c9_lock_discipline
  refine ⟨h.1 (Op.flushOneOp "t" 7) 0, h.2.1 (Op.flushOneOp "t" 7) 0, ?_⟩
  apply h.2.2
  intro p hp
  rcases List.mem_cons.mp hp with rfl | hp
  · exact ⟨Op.flushOneOp "t" 7, 0, rfl⟩
  · rcases List.mem_singleton.mp hp with rfl
    exact ⟨Op.insertOp "u" sampleBatch, 1, rfl⟩

end MilvusMem
